import Mathlib

/-!
Verification of the temporal-alignment core of the Content-Understanding
post-process repository (src/app.py), as a shallow embedding in Lean.

Two components are embedded:
* `merge_segments_by_selling_points` (src/app.py, the SegmentReconciler):
  reconciles timestamped selling-point phrases against content segments.
* `match_selling_points_with_timestamps` (src/app.py, the PhraseTimeLocator):
  locates each selling-point phrase inside a word-level transcript.

Python floats are modelled as exact rationals, Python `int(x)` as truncation
toward zero, and a run-time exception (in particular the ZeroDivisionError
reachable in the overlap-fraction computation) as `Option.none`.
-/

namespace CUPost

/-- A content segment from the content-understanding output, with the four
fields the reconciler extracts (`startTimeMs`, `endTimeMs`, and the
`sellingPoint` / `description` value strings, defaults already applied). -/
structure ContentSegment where
  startTimeMs : Int
  endTimeMs : Int
  sellingPoint : String
  description : String
  deriving DecidableEq, Repr, Inhabited

/-- A selling point with optional timestamps (seconds), as produced by the
locator and consumed by the reconciler. -/
structure SellingPoint where
  startTime : Option ℚ
  endTime : Option ℚ
  content : String
  deriving DecidableEq, Repr, Inhabited

/-- One entry of the reconciler's `merged_segments` list. -/
structure MergedSegment where
  startTimeMs : Option Int
  endTimeMs : Option Int
  content : String
  overlapping_segments : List ContentSegment
  deriving DecidableEq, Repr, Inhabited

/-- One entry of the reconciler's `final_segments` list. -/
structure FinalSegment where
  startTimeMs : Int
  endTimeMs : Int
  sellingPoint : String
  deriving DecidableEq, Repr, Inhabited

/-- The dictionary returned by `merge_segments_by_selling_points`. -/
structure MergeResult where
  merged_segments : List MergedSegment
  unmerged_segments : List ContentSegment
  final_segments : List FinalSegment
  deriving DecidableEq, Repr, Inhabited

/-- Python `int(q)`: truncation toward zero (floor for nonnegative values,
ceiling for negative values). -/
def pyInt (q : ℚ) : Int := if 0 ≤ q then ⌊q⌋ else -⌊-q⌋

/-- The overlap test of `merge_segments_by_selling_points` (src/app.py,
lines 474-487) for one content segment against one phrase whose converted
millisecond bounds are `ps`, `pe`.  Returns `some true` when the segment is
accepted, `some false` when rejected, and `none` when Python would raise
ZeroDivisionError (`shorter_duration = 0` with a positive overlap). -/
def overlapTest (tol : Int) (minOv : ℚ) (ps pe : Int) (seg : ContentSegment) :
    Option Bool :=
  let overlap_start := max seg.startTimeMs (ps - tol)
  let overlap_end := min seg.endTimeMs (pe + tol)
  if overlap_start < overlap_end then
    let shorter := min (seg.endTimeMs - seg.startTimeMs) (pe - ps)
    if shorter = 0 then none
    else some (decide (minOv ≤ ((overlap_end - overlap_start : Int) : ℚ) / ((shorter : Int) : ℚ)))
  else some false

/-- The inner loop `for i, segment in enumerate(video_segments)` of the
reconciler: collects, in input order, the accepted segments and the indices
added to `merged_segment_indices`. -/
def findOverlaps (tol : Int) (minOv : ℚ) (ps pe : Int) :
    List (ℕ × ContentSegment) → Option (List ContentSegment × List ℕ)
  | [] => some ([], [])
  | (i, seg) :: rest =>
    match overlapTest tol minOv ps pe seg with
    | none => none
    | some b =>
      match findOverlaps tol minOv ps pe rest with
      | none => none
      | some (os, idxs) =>
        if b then some (seg :: os, i :: idxs) else some (os, idxs)

/-- Processing of a single selling point by the reconciler (src/app.py,
lines 448-509): a phrase with a missing timestamp yields a null-times merged
segment with an empty overlap list; otherwise the times are converted to
integer milliseconds and every content segment is tested. -/
def processPhrase (tol : Int) (minOv : ℚ) (segs : List ContentSegment)
    (sp : SellingPoint) : Option (MergedSegment × List ℕ) :=
  match sp.startTime, sp.endTime with
  | some st, some et =>
    let ps := pyInt (st * 1000)
    let pe := pyInt (et * 1000)
    match findOverlaps tol minOv ps pe segs.enum with
    | none => none
    | some (os, idxs) => some (⟨some ps, some pe, sp.content, os⟩, idxs)
  | some _, none => some (⟨none, none, sp.content, []⟩, [])
  | none, _ => some (⟨none, none, sp.content, []⟩, [])

/-- The phrase loop of the reconciler, threading the accumulated
`merged_segment_indices` (modelled as the concatenation of the per-phrase
index lists; only membership is ever consulted). -/
def processPhrases (tol : Int) (minOv : ℚ) (segs : List ContentSegment) :
    List SellingPoint → Option (List MergedSegment × List ℕ)
  | [] => some ([], [])
  | sp :: sps =>
    match processPhrase tol minOv segs sp with
    | none => none
    | some (m, idxs) =>
      match processPhrases tol minOv segs sps with
      | none => none
      | some (ms, idxs2) => some (m :: ms, idxs ++ idxs2)

/-- Final-segment construction from a merged segment (src/app.py, lines
519-538): merged segments with a non-empty overlap list produce a final
segment spanning from the first overlapping segment's start to the last
overlapping segment's end; empty overlap lists produce nothing. -/
def finalOfMerged (m : MergedSegment) : Option FinalSegment :=
  match m.overlapping_segments with
  | [] => none
  | s :: rest =>
    some ⟨s.startTimeMs, ((s :: rest).getLast (List.cons_ne_nil s rest)).endTimeMs, m.content⟩

/-- Final-segment construction from an unmerged content segment
(src/app.py, lines 540-547). -/
def finalOfUnmerged (s : ContentSegment) : FinalSegment :=
  ⟨s.startTimeMs, s.endTimeMs, s.sellingPoint⟩

/-- Embedding of `merge_segments_by_selling_points` (src/app.py, lines
419-549) on well-typed inputs.  `none` models a Python exception.  The
Python defaults are `tol = 0`, `minOv = 1/5`. -/
def merge_segments_by_selling_points (content : List ContentSegment)
    (sps : List SellingPoint) (tol : Int) (minOv : ℚ) : Option MergeResult :=
  match processPhrases tol minOv content sps with
  | none => none
  | some (merged, idxs) =>
    let unmerged := (content.enum.filter (fun p => decide (p.1 ∉ idxs))).map Prod.snd
    some ⟨merged, unmerged,
      merged.filterMap finalOfMerged ++ unmerged.map finalOfUnmerged⟩

/-- Value-level acceptance of a content segment by a selling point, exactly
as the reconciler computes it (a phrase with a missing timestamp accepts
nothing). -/
def acceptedByB (tol : Int) (minOv : ℚ) (sp : SellingPoint)
    (seg : ContentSegment) : Bool :=
  match sp.startTime, sp.endTime with
  | some st, some et =>
    decide (overlapTest tol minOv (pyInt (st * 1000)) (pyInt (et * 1000)) seg = some true)
  | some _, none => false
  | none, _ => false

/-- Acceptance predicate written from the specification's words (spec.md,
section 4.2): `overlapStart = max(segment.startMs, phrase.startMs - toleranceMs)`,
`overlapEnd = min(segment.endMs, phrase.endMs + toleranceMs)`, an overlap
exists iff `overlapStart < overlapEnd`, and the pair is accepted iff
additionally `(overlapEnd - overlapStart) / min(segmentDuration, phraseDuration)
≥ minOverlapFraction`. -/
def specOverlapAccept (tol : Int) (minOv : ℚ) (ps pe : Int)
    (seg : ContentSegment) : Prop :=
  let overlapStart := max seg.startTimeMs (ps - tol)
  let overlapEnd := min seg.endTimeMs (pe + tol)
  overlapStart < overlapEnd ∧
    minOv ≤ ((overlapEnd - overlapStart : Int) : ℚ) /
      ((min (seg.endTimeMs - seg.startTimeMs) (pe - ps) : Int) : ℚ)

instance (tol : Int) (minOv : ℚ) (ps pe : Int) (seg : ContentSegment) :
    Decidable (specOverlapAccept tol minOv ps pe seg) := by
  unfold specOverlapAccept; infer_instance

/-- Final-segment construction written from the specification's words
(spec.md, section 4.2, final timeline): for a non-empty overlap list, the
final segment's start is the first overlapping content segment's start and
its end is the last one's end; an empty overlap list contributes nothing. -/
def specFinalOfMerged (m : MergedSegment) : Option FinalSegment :=
  match m.overlapping_segments with
  | [] => none
  | s :: rest =>
    some ⟨s.startTimeMs, ((s :: rest).getLast (List.cons_ne_nil s rest)).endTimeMs, m.content⟩

/-! ### PhraseTimeLocator: `match_selling_points_with_timestamps` -/

/-- A word-level transcript entry `(start_time, end_time, word)`; the word is
modelled as a list of characters (a Python string). -/
structure WordSeg where
  start : ℚ
  stop : ℚ
  word : List Char
  deriving DecidableEq, Repr, Inhabited

/-- One output entry of the locator. -/
structure TimedPhrase where
  startTime : Option ℚ
  endTime : Option ℚ
  content : List Char
  deriving DecidableEq, Repr, Inhabited

/-- Python `str.lower()` on the characters of a string. -/
def lowerStr (s : List Char) : List Char := s.map Char.toLower

/-- Python `str.split()` with no arguments: split on whitespace runs,
discarding empty chunks.  `acc` holds the current chunk, reversed. -/
def splitWsAux : List Char → List Char → List (List Char)
  | [], acc => if acc = [] then [] else [acc.reverse]
  | c :: cs, acc =>
    if c.isWhitespace then
      if acc = [] then splitWsAux cs [] else acc.reverse :: splitWsAux cs []
    else splitWsAux cs (c :: acc)

/-- Python `str.split()` with no arguments. -/
def splitWs (s : List Char) : List (List Char) := splitWsAux s []

/-- The word-equivalence test of the locator (src/app.py, line 328):
`word_data[i+j][2] in point_words[j] or point_words[j] in word_data[i+j][2]`,
i.e. mutual substring containment (both sides already lowercased). -/
def wordEquiv (w p : List Char) : Bool := decide (w <:+: p) || decide (p <:+: w)

/-- Pass-1 inner walk (src/app.py, lines 323-332): the number of consecutive
phrase words matched starting at transcript position `k`, stopping at the end
of the transcript, at an already-claimed position, or at the first mismatch. -/
def runCount1 (words : List WordSeg) (claimed : List ℕ) : ℕ → List (List Char) → ℕ
  | _, [] => 0
  | k, p :: ps =>
    match words[k]? with
    | none => 0
    | some w =>
      if k ∈ claimed then 0
      else if wordEquiv w.word p then runCount1 words claimed (k + 1) ps + 1
      else 0

/-- Pass-2 inner walk (src/app.py, lines 367-378): as `runCount1` but without
the already-claimed check. -/
def runCount2 (words : List WordSeg) : ℕ → List (List Char) → ℕ
  | _, [] => 0
  | k, p :: ps =>
    match words[k]? with
    | none => 0
    | some w =>
      if wordEquiv w.word p then runCount2 words (k + 1) ps + 1
      else 0

/-- Pass-1 greedy extension (src/app.py, lines 344-352): scan the transcript
entries after the matched run; an unclaimed word whose text is contained in
the joined remaining phrase words, or that contains one of them, pushes the
end time forward and is recorded as matched. -/
def extendScan1 (claimed : List ℕ) (rem : List Char) (pws : List (List Char)) :
    List (ℕ × WordSeg) → ℚ → List ℕ → ℚ × List ℕ
  | [], e, idxs => (e, idxs)
  | (k, w) :: rest, e, idxs =>
    if k ∈ claimed then extendScan1 claimed rem pws rest e idxs
    else if decide (w.word <:+: rem) || pws.any (fun pw => decide (pw <:+: w.word)) then
      extendScan1 claimed rem pws rest w.stop (idxs ++ [k])
    else extendScan1 claimed rem pws rest e idxs

/-- Pass-2 greedy extension (src/app.py, lines 390-394): as `extendScan1` but
without the already-claimed check. -/
def extendScan2 (rem : List Char) (pws : List (List Char)) :
    List (ℕ × WordSeg) → ℚ → List ℕ → ℚ × List ℕ
  | [], e, idxs => (e, idxs)
  | (k, w) :: rest, e, idxs =>
    if decide (w.word <:+: rem) || pws.any (fun pw => decide (pw <:+: w.word)) then
      extendScan2 rem pws rest w.stop (idxs ++ [k])
    else extendScan2 rem pws rest e idxs

/-- Pass-1 candidate scan (src/app.py, lines 315-341): walk the enumerated
transcript left to right, skipping positions that are already claimed or
where fewer than `pws.length` transcript words remain; accept the first
position whose consecutive-match count reaches `max 1 (pws.length / 2)`,
returning that position and its match count. -/
def findCandidate1 (words : List WordSeg) (claimed : List ℕ)
    (pws : List (List Char)) : List (ℕ × WordSeg) → Option (ℕ × ℕ)
  | [] => none
  | (i, _) :: rest =>
    if i ∈ claimed || words.length < i + pws.length then
      findCandidate1 words claimed pws rest
    else
      let mc := runCount1 words claimed i pws
      if max 1 (pws.length / 2) ≤ mc then some (i, mc)
      else findCandidate1 words claimed pws rest

/-- Pass-2 candidate scan (src/app.py, lines 359-383): as `findCandidate1`
but only skipping positions where the phrase does not fit. -/
def findCandidate2 (words : List WordSeg) (pws : List (List Char)) :
    List (ℕ × WordSeg) → Option (ℕ × ℕ)
  | [] => none
  | (i, _) :: rest =>
    if words.length < i + pws.length then findCandidate2 words pws rest
    else
      let mc := runCount2 words i pws
      if max 1 (pws.length / 2) ≤ mc then some (i, mc)
      else findCandidate2 words pws rest

/-- Pass 1 for one phrase: on acceptance at position `i` with match count
`mc`, the start time is word `i`'s start, the pre-extension end time is word
`i + mc - 1`'s end, the matched indices are `i .. i + mc - 1`, and when
remaining phrase words exist the greedy extension runs from `i + mc`. -/
def pass1 (words : List WordSeg) (claimed : List ℕ) (pws : List (List Char)) :
    Option (ℚ × ℚ × List ℕ) :=
  match findCandidate1 words claimed pws words.enum with
  | none => none
  | some (i, mc) =>
    let st := (words.getD i default).start
    let e0 := (words.getD (i + mc - 1) default).stop
    let idxs0 := (List.range mc).map (i + ·)
    let rem := List.intercalate [' '] (pws.drop mc)
    if rem = [] then some (st, e0, idxs0)
    else
      let p := extendScan1 claimed rem (pws.drop mc) (words.enum.drop (i + mc)) e0 idxs0
      some (st, p.1, p.2)

/-- Pass 2 for one phrase (claims ignored). -/
def pass2 (words : List WordSeg) (pws : List (List Char)) :
    Option (ℚ × ℚ × List ℕ) :=
  match findCandidate2 words pws words.enum with
  | none => none
  | some (i, mc) =>
    let st := (words.getD i default).start
    let e0 := (words.getD (i + mc - 1) default).stop
    let idxs0 := (List.range mc).map (i + ·)
    let rem := List.intercalate [' '] (pws.drop mc)
    if rem = [] then some (st, e0, idxs0)
    else
      let p := extendScan2 rem (pws.drop mc) (words.enum.drop (i + mc)) e0 idxs0
      some (st, p.1, p.2)

/-- Matching of one phrase: pass 1, then pass 2 as fallback. -/
def matchPhrase (words : List WordSeg) (claimed : List ℕ)
    (pws : List (List Char)) : Option (ℚ × ℚ × List ℕ) :=
  match pass1 words claimed pws with
  | some r => some r
  | none => pass2 words pws

/-- Python `round` to the nearest integer, ties to even. -/
def roundHalfEven (x : ℚ) : Int :=
  let f := ⌊x⌋
  if x - f < 1 / 2 then f
  else if (1 : ℚ) / 2 < x - f then f + 1
  else if f % 2 = 0 then f else f + 1

/-- Python `round(x, 2)`. -/
def round2 (x : ℚ) : ℚ := ((roundHalfEven (x * 100) : Int) : ℚ) / 100

/-- The phrase loop of the locator (src/app.py, lines 303-415): empty
phrases (after lowercasing and whitespace splitting) are skipped entirely;
a matched phrase appends a timed entry and claims its matched indices; an
unmatched phrase appends a null-times entry. -/
def processPointsLoop (words : List WordSeg) :
    List ℕ → List (List Char) → List TimedPhrase
  | _, [] => []
  | claimed, sp :: sps =>
    let pws := splitWs (lowerStr sp)
    if pws = [] then processPointsLoop words claimed sps
    else
      match matchPhrase words claimed pws with
      | some (s, e, idxs) =>
        ⟨some (round2 s), some (round2 e), sp⟩ ::
          processPointsLoop words (claimed ++ idxs) sps
      | none => ⟨none, none, sp⟩ :: processPointsLoop words claimed sps

/-- The sort key of the locator's final sort (src/app.py, line 417):
ascending by `(startTime is None, startTime)`. -/
def sortKeyLE (a b : TimedPhrase) : Bool :=
  match a.startTime, b.startTime with
  | none, none => true
  | none, some _ => false
  | some _, none => true
  | some x, some y => decide (x ≤ y)

/-- Embedding of `match_selling_points_with_timestamps` (src/app.py, lines
283-420): lowercase the transcript words, process the selling points in
order with claim tracking, and stable-sort the result by
`(startTime is None, startTime)`. -/
def match_selling_points_with_timestamps (word_segments : List WordSeg)
    (selling_points : List (List Char)) : List TimedPhrase :=
  let word_data := word_segments.map (fun w => ⟨w.start, w.stop, lowerStr w.word⟩)
  (processPointsLoop word_data [] selling_points).mergeSort sortKeyLE

/-- Amended pass-1 acceptance predicate: position `i` is accepted iff the
whole phrase still fits at `i` and the consecutive-match run starting at `i`
reaches the majority-prefix threshold. -/
def prefixAccept (words : List WordSeg) (claimed : List ℕ)
    (pws : List (List Char)) (i : ℕ) : Prop :=
  i + pws.length ≤ words.length ∧
    max 1 (pws.length / 2) ≤ runCount1 words claimed i pws

instance (words : List WordSeg) (claimed : List ℕ) (pws : List (List Char))
    (i : ℕ) : Decidable (prefixAccept words claimed pws i) := by
  unfold prefixAccept; infer_instance

/-! ### Helper lemmas for the reconciler -/

lemma overlapTest_ne_none (tol : Int) (minOv : ℚ) (ps pe : Int)
    (seg : ContentSegment) (hdur : pe - ps ≠ 0) :
    overlapTest tol minOv ps pe seg ≠ none := by
  unfold overlapTest
  by_cases hov : max seg.startTimeMs (ps - tol) < min seg.endTimeMs (pe + tol)
  · simp only [hov, if_true]
    by_cases hsh : min (seg.endTimeMs - seg.startTimeMs) (pe - ps) = 0
    · exfalso
      have hseg : seg.endTimeMs - seg.startTimeMs = 0 := by
        rcases le_total (seg.endTimeMs - seg.startTimeMs) (pe - ps) with hle | hle
        · rwa [min_eq_left hle] at hsh
        · rw [min_eq_right hle] at hsh; exact absurd hsh hdur
      have h1 : min seg.endTimeMs (pe + tol) ≤ seg.startTimeMs := by
        have : seg.endTimeMs = seg.startTimeMs := by omega
        calc min seg.endTimeMs (pe + tol) ≤ seg.endTimeMs := min_le_left _ _
          _ = seg.startTimeMs := this
      have h2 : seg.startTimeMs ≤ max seg.startTimeMs (ps - tol) := le_max_left _ _
      omega
    · simp [hsh]
  · simp [hov]

lemma overlapTest_some_true_iff (tol : Int) (minOv : ℚ) (ps pe : Int)
    (seg : ContentSegment) (h : overlapTest tol minOv ps pe seg ≠ none) :
    (overlapTest tol minOv ps pe seg = some true ↔
      specOverlapAccept tol minOv ps pe seg) := by
  unfold overlapTest at *
  unfold specOverlapAccept
  by_cases hov : max seg.startTimeMs (ps - tol) < min seg.endTimeMs (pe + tol)
  · simp only [hov, if_true, true_and] at *
    by_cases hsh : min (seg.endTimeMs - seg.startTimeMs) (pe - ps) = 0
    · simp [hsh] at h
    · simp [hsh, decide_eq_true_eq]
  · simp [hov]

lemma findOverlaps_eq (tol : Int) (minOv : ℚ) (ps pe : Int)
    (l : List (ℕ × ContentSegment))
    (h : ∀ p ∈ l, overlapTest tol minOv ps pe p.2 ≠ none) :
    findOverlaps tol minOv ps pe l =
      some (((l.filter fun p => decide (overlapTest tol minOv ps pe p.2 = some true)).map Prod.snd),
            ((l.filter fun p => decide (overlapTest tol minOv ps pe p.2 = some true)).map Prod.fst)) := by
  induction l with
  | nil => rfl
  | cons hd tl ih =>
    obtain ⟨i, seg⟩ := hd
    have hhd : overlapTest tol minOv ps pe seg ≠ none := h (i, seg) (by simp)
    have htl : ∀ p ∈ tl, overlapTest tol minOv ps pe p.2 ≠ none := by
      intro p hp; exact h p (by simp [hp])
    cases hob : overlapTest tol minOv ps pe seg with
    | none => exact absurd hob hhd
    | some b =>
      rw [show findOverlaps tol minOv ps pe ((i, seg) :: tl)
            = match overlapTest tol minOv ps pe seg with
              | none => none
              | some b =>
                match findOverlaps tol minOv ps pe tl with
                | none => none
                | some (os, idxs) =>
                  if b then some (seg :: os, i :: idxs) else some (os, idxs) from rfl]
      rw [hob, ih htl, List.filter_cons]
      cases b with
      | true => simp [hob]
      | false => simp [hob]

lemma findOverlaps_isSome_elim (tol : Int) (minOv : ℚ) (ps pe : Int) :
    ∀ l : List (ℕ × ContentSegment), (findOverlaps tol minOv ps pe l).isSome →
      ∀ p ∈ l, overlapTest tol minOv ps pe p.2 ≠ none := by
  intro l
  induction l with
  | nil => simp
  | cons hd tl ih =>
    obtain ⟨i, seg⟩ := hd
    rw [show findOverlaps tol minOv ps pe ((i, seg) :: tl)
          = match overlapTest tol minOv ps pe seg with
            | none => none
            | some b =>
              match findOverlaps tol minOv ps pe tl with
              | none => none
              | some (os, idxs) =>
                if b then some (seg :: os, i :: idxs) else some (os, idxs) from rfl]
    cases hob : overlapTest tol minOv ps pe seg with
    | none => simp
    | some b =>
      cases hrec : findOverlaps tol minOv ps pe tl with
      | none => simp
      | some pr =>
        intro _ p hp
        rcases List.mem_cons.mp hp with hp1 | hp2
        · subst hp1; simp [hob]
        · exact ih (by rw [hrec]; rfl) p hp2

lemma findOverlaps_some_elim (tol : Int) (minOv : ℚ) (ps pe : Int)
    (l : List (ℕ × ContentSegment)) (os : List ContentSegment) (idxs : List ℕ)
    (h : findOverlaps tol minOv ps pe l = some (os, idxs)) :
    (∀ p ∈ l, overlapTest tol minOv ps pe p.2 ≠ none) ∧
    os = (l.filter fun p => decide (overlapTest tol minOv ps pe p.2 = some true)).map Prod.snd ∧
    idxs = (l.filter fun p => decide (overlapTest tol minOv ps pe p.2 = some true)).map Prod.fst := by
  have hne : ∀ p ∈ l, overlapTest tol minOv ps pe p.2 ≠ none :=
    findOverlaps_isSome_elim tol minOv ps pe l (by rw [h]; rfl)
  have heq := findOverlaps_eq tol minOv ps pe l hne
  rw [heq] at h
  injection h with h'
  exact ⟨hne, congrArg Prod.fst h'.symm, congrArg Prod.snd h'.symm⟩

lemma mem_enumFrom_iff {α : Type} (l : List α) (n i : ℕ) (a : α) :
    (i, a) ∈ List.enumFrom n l ↔ ∃ k, i = n + k ∧ l[k]? = some a := by
  induction l generalizing n with
  | nil => simp
  | cons hd tl ih =>
    rw [List.enumFrom_cons, List.mem_cons, ih (n + 1)]
    constructor
    · rintro (h1 | ⟨k, hk1, hk2⟩)
      · exact ⟨0, by simpa [Prod.ext_iff, eq_comm] using h1⟩
      · exact ⟨k + 1, by omega, by simpa using hk2⟩
    · rintro ⟨k, hk1, hk2⟩
      cases k with
      | zero => left; simp at hk2; simp [Prod.ext_iff, hk1, hk2]
      | succ k => right; exact ⟨k, by omega, by simpa using hk2⟩

lemma enumFrom_functional {α : Type} (l : List α) (n i : ℕ) (a b : α)
    (ha : (i, a) ∈ List.enumFrom n l) (hb : (i, b) ∈ List.enumFrom n l) : a = b := by
  rw [mem_enumFrom_iff] at ha hb
  obtain ⟨k, hk1, hk2⟩ := ha
  obtain ⟨k', hk1', hk2'⟩ := hb
  have : k = k' := by omega
  subst this
  rw [hk2] at hk2'
  exact Option.some_inj.mp hk2'

lemma mem_enum_of_mem {α : Type} (l : List α) (a : α) (ha : a ∈ l) :
    ∃ i, (i, a) ∈ l.enum := by
  obtain ⟨k, hk, he⟩ := List.mem_iff_getElem.mp ha
  refine ⟨k, ?_⟩
  rw [show l.enum = List.enumFrom 0 l from rfl, mem_enumFrom_iff]
  exact ⟨k, by omega, by rw [List.getElem?_eq_getElem hk, he]⟩

lemma enumFrom_filter_snd {α : Type} (f : α → Bool) :
    ∀ (l : List α) (n : ℕ),
      ((List.enumFrom n l).filter fun p => f p.2).map Prod.snd = l.filter f := by
  intro l
  induction l with
  | nil => intro n; rfl
  | cons hd tl ih =>
    intro n
    have htl := ih (n + 1)
    rw [List.enumFrom_cons]
    cases hf : f hd with
    | true => simp [List.filter_cons, hf, htl]
    | false => simp [List.filter_cons, hf, htl]

lemma enumFrom_filter_transport {α : Type} (p : ℕ → Bool) (q : α → Bool) :
    ∀ (l : List α) (n : ℕ),
      (∀ i a, (i, a) ∈ List.enumFrom n l → p i = q a) →
      ((List.enumFrom n l).filter fun x => p x.1).map Prod.snd = l.filter q := by
  intro l
  induction l with
  | nil => intro n _; rfl
  | cons hd tl ih =>
    intro n h
    have h0 : p n = q hd := h n hd (by rw [List.enumFrom_cons]; simp)
    have htl := ih (n + 1) (fun i a hia => h i a (by rw [List.enumFrom_cons]; simp [hia]))
    rw [List.enumFrom_cons]
    cases hq : q hd with
    | true => simp [List.filter_cons, h0, hq, htl]
    | false => simp [List.filter_cons, h0, hq, htl]

lemma mem_map_fst_filter_snd {α : Type} (f : α → Bool) (l : List (ℕ × α)) (i : ℕ) :
    (i ∈ (l.filter fun p => f p.2).map Prod.fst) ↔ ∃ a, (i, a) ∈ l ∧ f a = true := by
  rw [List.mem_map]
  constructor
  · rintro ⟨⟨j, a⟩, hmem, hj⟩
    rw [List.mem_filter] at hmem
    exact ⟨a, by simpa [← hj] using hmem.1, hmem.2⟩
  · rintro ⟨a, hmem, hf⟩
    exact ⟨(i, a), List.mem_filter.mpr ⟨hmem, hf⟩, rfl⟩

/-- Characterization of `processPhrase` on success: the merged segment keeps
the phrase's content, its overlap list is the in-order sublist of accepted
content segments, and the returned indices are exactly the indices of
accepted segments. -/
lemma processPhrase_some_elim (tol : Int) (minOv : ℚ) (segs : List ContentSegment)
    (sp : SellingPoint) (m : MergedSegment) (idxs : List ℕ)
    (h : processPhrase tol minOv segs sp = some (m, idxs)) :
    m.content = sp.content ∧
    m.overlapping_segments = segs.filter (acceptedByB tol minOv sp) ∧
    (∀ i, i ∈ idxs ↔ ∃ a, (i, a) ∈ segs.enum ∧ acceptedByB tol minOv sp a = true) ∧
    (∀ st et, sp.startTime = some st → sp.endTime = some et →
      ∀ s ∈ segs, overlapTest tol minOv (pyInt (st * 1000)) (pyInt (et * 1000)) s ≠ none) := by
  obtain ⟨ost, oet, ctn⟩ := sp
  cases ost with
  | none =>
    simp only [processPhrase] at h
    injection h with h'
    injection h' with h1 h2
    subst h1; subst h2
    refine ⟨rfl, ?_, by simp [acceptedByB], by simp⟩
    rw [List.filter_eq_nil_iff.mpr ?_]
    intro a _
    simp [acceptedByB]
  | some st =>
    cases oet with
    | none =>
      simp only [processPhrase] at h
      injection h with h'
      injection h' with h1 h2
      subst h1; subst h2
      refine ⟨rfl, ?_, by simp [acceptedByB], by simp⟩
      rw [List.filter_eq_nil_iff.mpr ?_]
      intro a _
      simp [acceptedByB]
    | some et =>
      simp only [processPhrase] at h
      cases hfo : findOverlaps tol minOv (pyInt (st * 1000)) (pyInt (et * 1000)) segs.enum with
      | none => rw [hfo] at h; exact absurd h (by simp)
      | some pr =>
        obtain ⟨os, is⟩ := pr
        rw [hfo] at h
        injection h with h'
        injection h' with h1 h2
        subst h1; subst h2
        obtain ⟨hne, hos, his⟩ :=
          findOverlaps_some_elim tol minOv (pyInt (st * 1000)) (pyInt (et * 1000)) segs.enum os is hfo
        have hacc : ∀ a : ContentSegment,
            acceptedByB tol minOv ⟨some st, some et, ctn⟩ a
              = decide (overlapTest tol minOv (pyInt (st * 1000)) (pyInt (et * 1000)) a = some true) := by
          intro a; rfl
        refine ⟨rfl, ?_, ?_, ?_⟩
        · rw [hos, show segs.enum = List.enumFrom 0 segs from rfl]
          exact enumFrom_filter_snd (acceptedByB tol minOv ⟨some st, some et, ctn⟩) segs 0
        · intro i
          rw [his]
          exact mem_map_fst_filter_snd
            (acceptedByB tol minOv ⟨some st, some et, ctn⟩) segs.enum i
        · intro st' et' hst' het' s hs
          injection hst' with hst'; injection het' with het'
          subst hst'; subst het'
          obtain ⟨i, hi⟩ := mem_enum_of_mem segs s hs
          exact hne (i, s) hi

/-- Characterization of `processPhrases` on success: the merged list is
phrase-wise (each entry depends only on its own phrase), and the accumulated
index list contains exactly the indices accepted by some phrase. -/
lemma processPhrases_some_elim (tol : Int) (minOv : ℚ) (segs : List ContentSegment) :
    ∀ (sps : List SellingPoint) (ms : List MergedSegment) (idxs : List ℕ),
      processPhrases tol minOv segs sps = some (ms, idxs) →
      ms.length = sps.length ∧
      (∀ k, k < sps.length → ∃ is2,
        processPhrase tol minOv segs (sps.getD k default) = some (ms.getD k default, is2)) ∧
      (∀ i, i ∈ idxs ↔ ∃ sp ∈ sps, ∃ a, (i, a) ∈ segs.enum ∧
        acceptedByB tol minOv sp a = true) := by
  intro sps
  induction sps with
  | nil =>
    intro ms idxs h
    injection h with h'
    injection h' with h1 h2
    subst h1; subst h2
    exact ⟨rfl, by intro k hk; simp at hk, by simp⟩
  | cons sp sps ih =>
    intro ms idxs h
    rw [show processPhrases tol minOv segs (sp :: sps)
          = match processPhrase tol minOv segs sp with
            | none => none
            | some (m, idxs) =>
              match processPhrases tol minOv segs sps with
              | none => none
              | some (ms, idxs2) => some (m :: ms, idxs ++ idxs2) from rfl] at h
    cases hp : processPhrase tol minOv segs sp with
    | none => rw [hp] at h; exact absurd h (by simp)
    | some pr =>
      obtain ⟨m, is1⟩ := pr
      rw [hp] at h
      cases hps : processPhrases tol minOv segs sps with
      | none => rw [hps] at h; exact absurd h (by simp)
      | some pr2 =>
        obtain ⟨ms2, is2⟩ := pr2
        rw [hps] at h
        injection h with h'
        injection h' with h1 h2
        subst h1; subst h2
        obtain ⟨hlen, hk, hmem⟩ := ih ms2 is2 hps
        refine ⟨by simp [hlen], ?_, ?_⟩
        · intro k hklt
          cases k with
          | zero => exact ⟨is1, by simpa using hp⟩
          | succ k =>
            obtain ⟨is3, his3⟩ := hk k (by simpa using hklt)
            exact ⟨is3, by simpa using his3⟩
        · intro i
          rw [List.mem_append, hmem i]
          constructor
          · rintro (h1 | ⟨sp', hsp', a, ha, hacc⟩)
            · obtain ⟨_, _, hiff, _⟩ :=
                processPhrase_some_elim tol minOv segs sp m is1 hp
              obtain ⟨a, ha, hacc⟩ := (hiff i).mp h1
              exact ⟨sp, by simp, a, ha, hacc⟩
            · exact ⟨sp', by simp [hsp'], a, ha, hacc⟩
          · rintro ⟨sp', hsp', a, ha, hacc⟩
            rcases List.mem_cons.mp hsp' with h1 | h2
            · subst h1
              obtain ⟨_, _, hiff, _⟩ :=
                processPhrase_some_elim tol minOv segs sp' m is1 hp
              exact Or.inl ((hiff i).mpr ⟨a, ha, hacc⟩)
            · exact Or.inr ⟨sp', h2, a, ha, hacc⟩

/-- Master characterization of the reconciler on success. -/
lemma merge_some_elim (content : List ContentSegment) (sps : List SellingPoint)
    (tol : Int) (minOv : ℚ) (r : MergeResult)
    (h : merge_segments_by_selling_points content sps tol minOv = some r) :
    ∃ idxs,
      processPhrases tol minOv content sps = some (r.merged_segments, idxs) ∧
      r.unmerged_segments
        = (content.enum.filter (fun p => decide (p.1 ∉ idxs))).map Prod.snd ∧
      r.final_segments = r.merged_segments.filterMap finalOfMerged
        ++ r.unmerged_segments.map finalOfUnmerged := by
  unfold merge_segments_by_selling_points at h
  cases hps : processPhrases tol minOv content sps with
  | none => rw [hps] at h; exact absurd h (by simp)
  | some pr =>
    obtain ⟨ms, idxs⟩ := pr
    rw [hps] at h
    injection h with h'
    refine ⟨idxs, ?_, ?_, ?_⟩ <;> rw [← h']

/-- On success, the unmerged list is the in-order sublist of content
segments accepted by no phrase. -/
lemma merge_unmerged_char (content : List ContentSegment) (sps : List SellingPoint)
    (tol : Int) (minOv : ℚ) (r : MergeResult) (idxs : List ℕ)
    (hps : processPhrases tol minOv content sps = some (r.merged_segments, idxs))
    (hu : r.unmerged_segments
        = (content.enum.filter (fun p => decide (p.1 ∉ idxs))).map Prod.snd) :
    r.unmerged_segments
      = content.filter fun a => !(sps.any fun sp => acceptedByB tol minOv sp a) := by
  obtain ⟨_, _, hmem⟩ := processPhrases_some_elim tol minOv content sps _ _ hps
  rw [hu, show content.enum = List.enumFrom 0 content from rfl]
  refine enumFrom_filter_transport (fun i => decide (i ∉ idxs))
    (fun a => !(sps.any fun sp => acceptedByB tol minOv sp a)) content 0 ?_
  intro i a hia
  by_cases hi : i ∈ idxs
  · obtain ⟨sp, hsp, a2, ha2, hacc⟩ := (hmem i).mp hi
    have haa : a2 = a := enumFrom_functional content 0 i a2 a ha2 hia
    rw [haa] at hacc
    have hany : (sps.any fun sp2 => acceptedByB tol minOv sp2 a) = true :=
      List.any_eq_true.mpr ⟨sp, hsp, hacc⟩
    simp [hi, hany]
  · have hany : (sps.any fun sp => acceptedByB tol minOv sp a) = false := by
      refine Bool.eq_false_iff.mpr ?_
      intro hc
      obtain ⟨sp, hsp, hacc⟩ := List.any_eq_true.mp hc
      exact hi ((hmem i).mpr ⟨sp, hsp, a, hia, hacc⟩)
    simp [hi, hany]

/-- On success, every merged segment's overlap list is the in-order sublist
of content segments accepted by its own phrase. -/
lemma merged_mem_char (content : List ContentSegment) (sps : List SellingPoint)
    (tol : Int) (minOv : ℚ) (r : MergeResult) (idxs : List ℕ)
    (hps : processPhrases tol minOv content sps = some (r.merged_segments, idxs)) :
    ∀ m ∈ r.merged_segments, ∃ sp ∈ sps,
      m.overlapping_segments = content.filter (acceptedByB tol minOv sp) := by
  obtain ⟨hlen, hk, _⟩ := processPhrases_some_elim tol minOv content sps _ _ hps
  intro m hm
  obtain ⟨k, hklt, hke⟩ := List.mem_iff_getElem.mp hm
  have hks : k < sps.length := by omega
  obtain ⟨is2, his2⟩ := hk k hks
  obtain ⟨_, hover, _, _⟩ := processPhrase_some_elim tol minOv content _ _ _ his2
  refine ⟨sps.getD k default, ?_, ?_⟩
  · rw [List.getD_eq_getElem sps default hks]
    exact List.getElem_mem hks
  · rw [← hover]
    congr 1
    rw [List.getD_eq_getElem r.merged_segments default hklt, hke]

/-- On success, a content segment lies in some merged segment's overlap list
iff some phrase accepts it. -/
lemma mem_overlapping_iff (content : List ContentSegment) (sps : List SellingPoint)
    (tol : Int) (minOv : ℚ) (r : MergeResult) (idxs : List ℕ)
    (hps : processPhrases tol minOv content sps = some (r.merged_segments, idxs))
    (s : ContentSegment) :
    (∃ m ∈ r.merged_segments, s ∈ m.overlapping_segments) ↔
      (s ∈ content ∧ ∃ sp ∈ sps, acceptedByB tol minOv sp s = true) := by
  obtain ⟨hlen, hk, _⟩ := processPhrases_some_elim tol minOv content sps _ _ hps
  constructor
  · rintro ⟨m, hm, hs⟩
    obtain ⟨sp, hsp, hover⟩ := merged_mem_char content sps tol minOv r idxs hps m hm
    rw [hover, List.mem_filter] at hs
    exact ⟨hs.1, sp, hsp, hs.2⟩
  · rintro ⟨hs, sp, hsp, hacc⟩
    obtain ⟨k, hks, hke⟩ := List.mem_iff_getElem.mp hsp
    have hkm : k < r.merged_segments.length := by omega
    obtain ⟨is2, his2⟩ := hk k hks
    obtain ⟨_, hover, _, _⟩ := processPhrase_some_elim tol minOv content _ _ _ his2
    refine ⟨r.merged_segments.getD k default, ?_, ?_⟩
    · rw [List.getD_eq_getElem r.merged_segments default hkm]
      exact List.getElem_mem hkm
    · rw [hover, List.mem_filter]
      refine ⟨hs, ?_⟩
      rw [List.getD_eq_getElem sps default hks, hke]
      exact hacc

lemma processPhrase_isSome (tol : Int) (minOv : ℚ) (segs : List ContentSegment)
    (sp : SellingPoint)
    (h : ∀ st et, sp.startTime = some st → sp.endTime = some et →
      pyInt (et * 1000) - pyInt (st * 1000) ≠ 0) :
    (processPhrase tol minOv segs sp).isSome := by
  obtain ⟨ost, oet, ctn⟩ := sp
  cases ost with
  | none => simp [processPhrase]
  | some st =>
    cases oet with
    | none => simp [processPhrase]
    | some et =>
      have hdur : pyInt (et * 1000) - pyInt (st * 1000) ≠ 0 := h st et rfl rfl
      have hne : ∀ p ∈ segs.enum,
          overlapTest tol minOv (pyInt (st * 1000)) (pyInt (et * 1000)) p.2 ≠ none :=
        fun p _ => overlapTest_ne_none tol minOv _ _ p.2 hdur
      simp only [processPhrase]
      rw [findOverlaps_eq tol minOv _ _ segs.enum hne]
      rfl

lemma processPhrases_isSome (tol : Int) (minOv : ℚ) (segs : List ContentSegment) :
    ∀ sps : List SellingPoint,
      (∀ sp ∈ sps, ∀ st et, sp.startTime = some st → sp.endTime = some et →
        pyInt (et * 1000) - pyInt (st * 1000) ≠ 0) →
      (processPhrases tol minOv segs sps).isSome := by
  intro sps
  induction sps with
  | nil => intro _; simp [processPhrases]
  | cons sp sps ih =>
    intro h
    have h1 := processPhrase_isSome tol minOv segs sp (h sp (by simp))
    have h2 := ih (fun sp' hsp' => h sp' (by simp [hsp']))
    rw [show processPhrases tol minOv segs (sp :: sps)
          = match processPhrase tol minOv segs sp with
            | none => none
            | some (m, idxs) =>
              match processPhrases tol minOv segs sps with
              | none => none
              | some (ms, idxs2) => some (m :: ms, idxs ++ idxs2) from rfl]
    cases hp : processPhrase tol minOv segs sp with
    | none => rw [hp] at h1; exact absurd h1 (by simp)
    | some pr1 =>
      cases hps : processPhrases tol minOv segs sps with
      | none => rw [hps] at h2; exact absurd h2 (by simp)
      | some pr2 =>
        obtain ⟨m, is1⟩ := pr1
        obtain ⟨ms, is2⟩ := pr2
        rfl

/-- In a list sorted by a numeric key, every element's key is bounded by the
last element's key. -/
lemma sorted_le_getLast {α : Type} (f : α → Int) :
    ∀ (l : List α) (hne : l ≠ []), List.Sorted (fun a b => f a ≤ f b) l →
      ∀ x ∈ l, f x ≤ f (l.getLast hne) := by
  intro l
  induction l with
  | nil => intro hne; exact absurd rfl hne
  | cons a t ih =>
    intro hne hs x hx
    cases t with
    | nil =>
      rw [List.mem_singleton] at hx
      subst hx
      exact le_refl _
    | cons b t' =>
      have hne' : b :: t' ≠ [] := List.cons_ne_nil b t'
      rw [List.getLast_cons hne']
      rw [List.sorted_cons] at hs
      rcases List.mem_cons.mp hx with h1 | h2
      · subst h1
        exact le_trans (hs.1 _ (List.getLast_mem hne')) (le_refl _)
      · exact ih hne' hs.2 x h2

lemma acceptedByB_timed (tol : Int) (minOv : ℚ) (sp : SellingPoint) (st et : ℚ)
    (hst : sp.startTime = some st) (het : sp.endTime = some et)
    (s : ContentSegment) :
    acceptedByB tol minOv sp s
      = decide (overlapTest tol minOv (pyInt (st * 1000)) (pyInt (et * 1000)) s
          = some true) := by
  obtain ⟨ost, oet, c⟩ := sp
  simp only [SellingPoint.startTime] at hst
  simp only [SellingPoint.endTime] at het
  subst hst
  subst het
  rfl

lemma finalOfMerged_eq_none (m : MergedSegment)
    (h : m.overlapping_segments = []) : finalOfMerged m = none := by
  unfold finalOfMerged
  rw [h]

lemma finalOfMerged_cons (m : MergedSegment) (s : ContentSegment)
    (rest : List ContentSegment) (h : m.overlapping_segments = s :: rest) :
    finalOfMerged m = some ⟨s.startTimeMs,
      ((s :: rest).getLast (List.cons_ne_nil s rest)).endTimeMs, m.content⟩ := by
  unfold finalOfMerged
  rw [h]

/-! ### Shared concrete inputs for witnesses and counterexamples -/

/-- Witness content segment spanning 0 to 1000 ms. -/
def segW : ContentSegment := ⟨0, 1000, "s", "d"⟩

/-- Witness phrase spanning 0 to 1 second. -/
def spW : SellingPoint := ⟨some 0, some 1, "p"⟩

/-- The reconciler's output on `[segW]`, `[spW]` with `tol = 0`,
`minOv = 1/5`. -/
def resW : MergeResult :=
  ⟨[⟨some 0, some 1000, "p", [segW]⟩], [], [⟨0, 1000, "p"⟩]⟩

lemma mergeW : merge_segments_by_selling_points [segW] [spW] 0 (1 / 5)
    = some resW := by
  norm_num [merge_segments_by_selling_points, processPhrases, processPhrase, findOverlaps,
    overlapTest, pyInt, segW, spW, resW, finalOfMerged, finalOfUnmerged, List.enum,
    List.enumFrom, List.filterMap_cons, List.filterMap_nil, List.getLast]

/-! ### Claims C4 and C5 -/

/-- Claim C4: for every input to reconcile, every content segment appears in
exactly one of the two categories (member of some merged segment's
overlapping list, member of the unmerged list) — never in both and never in
neither. -/
theorem claim4_segment_exactly_one_category (content : List ContentSegment)
    (sps : List SellingPoint) (tol : Int) (minOv : ℚ) (r : MergeResult)
    (h : merge_segments_by_selling_points content sps tol minOv = some r)
    (s : ContentSegment) (hs : s ∈ content) :
    Xor' (∃ m ∈ r.merged_segments, s ∈ m.overlapping_segments)
      (s ∈ r.unmerged_segments) := by
  obtain ⟨idxs, hps, hu, hf⟩ := merge_some_elim content sps tol minOv r h
  have hover := mem_overlapping_iff content sps tol minOv r idxs hps s
  have hunm := merge_unmerged_char content sps tol minOv r idxs hps hu
  unfold Xor'
  by_cases hacc : ∃ sp ∈ sps, acceptedByB tol minOv sp s = true
  · refine Or.inl ⟨hover.mpr ⟨hs, hacc⟩, ?_⟩
    rw [hunm, List.mem_filter]
    rintro ⟨_, hfalse⟩
    obtain ⟨sp, hsp, h1⟩ := hacc
    have hany : (sps.any fun sp => acceptedByB tol minOv sp s) = true :=
      List.any_eq_true.mpr ⟨sp, hsp, h1⟩
    simp [hany] at hfalse
  · refine Or.inr ⟨?_, ?_⟩
    · rw [hunm, List.mem_filter]
      refine ⟨hs, ?_⟩
      have hany : (sps.any fun sp => acceptedByB tol minOv sp s) = false := by
        refine Bool.eq_false_iff.mpr ?_
        intro hc
        obtain ⟨sp, hsp, h1⟩ := List.any_eq_true.mp hc
        exact hacc ⟨sp, hsp, h1⟩
      simp [hany]
    · intro hcon
      exact hacc (hover.mp hcon).2

/-- Witness for C4 at a concrete input. -/
theorem claim4_witness :
    Xor' (∃ m ∈ resW.merged_segments, segW ∈ m.overlapping_segments)
      (segW ∈ resW.unmerged_segments) :=
  claim4_segment_exactly_one_category [segW] [spW] 0 (1 / 5) resW mergeW segW
    (by decide)

/-- Claim C5: for every phrase with non-null times (converted to integer
milliseconds) and every content segment, a successful reconcile places the
segment in that phrase's overlapping list iff
`overlapStart < overlapEnd` and
`(overlapEnd - overlapStart) / min(segmentDuration, phraseDuration)` is at
least `minOverlapFraction`, with
`overlapStart = max(segment.startMs, phrase.startMs - toleranceMs)` and
`overlapEnd = min(segment.endMs, phrase.endMs + toleranceMs)`. -/
theorem claim5_overlap_rule (content : List ContentSegment)
    (sps : List SellingPoint) (tol : Int) (minOv : ℚ) (r : MergeResult)
    (h : merge_segments_by_selling_points content sps tol minOv = some r)
    (k : ℕ) (hk : k < sps.length) (st et : ℚ)
    (hst : (sps.getD k default).startTime = some st)
    (het : (sps.getD k default).endTime = some et)
    (s : ContentSegment) (hs : s ∈ content) :
    s ∈ (r.merged_segments.getD k default).overlapping_segments ↔
      specOverlapAccept tol minOv (pyInt (st * 1000)) (pyInt (et * 1000)) s := by
  obtain ⟨idxs, hps, _, _⟩ := merge_some_elim content sps tol minOv r h
  obtain ⟨hlen, hkk, _⟩ := processPhrases_some_elim tol minOv content sps _ _ hps
  obtain ⟨is2, his2⟩ := hkk k hk
  obtain ⟨_, hover, _, hne⟩ := processPhrase_some_elim tol minOv content _ _ _ his2
  have hne' := hne st et hst het s hs
  have hiff := overlapTest_some_true_iff tol minOv _ _ s hne'
  rw [hover, List.mem_filter]
  constructor
  · rintro ⟨_, hb⟩
    rw [acceptedByB_timed tol minOv _ st et hst het s, decide_eq_true_eq] at hb
    exact hiff.mp hb
  · intro hspec
    refine ⟨hs, ?_⟩
    rw [acceptedByB_timed tol minOv _ st et hst het s, decide_eq_true_eq]
    exact hiff.mpr hspec

/-- Witness for C5 at a concrete input. -/
theorem claim5_witness :
    segW ∈ (resW.merged_segments.getD 0 default).overlapping_segments ↔
      specOverlapAccept 0 (1 / 5) (pyInt (0 * 1000)) (pyInt (1 * 1000)) segW :=
  claim5_overlap_rule [segW] [spW] 0 (1 / 5) resW mergeW 0 (by decide) 0 1
    rfl rfl segW (by decide)

/-! ### Claims C1, C2, C3, C10 -/

/-- A second phrase with the same span as `spW`. -/
def spQ : SellingPoint := ⟨some 0, some 1, "q"⟩

/-- The reconciler's output on `[segW]`, `[spW, spQ]`: the one content
segment is absorbed by both phrases. -/
def resC1 : MergeResult :=
  ⟨[⟨some 0, some 1000, "p", [segW]⟩, ⟨some 0, some 1000, "q", [segW]⟩], [],
    [⟨0, 1000, "p"⟩, ⟨0, 1000, "q"⟩]⟩

/-- Counterexample to C1 as stated: with two phrases covering the same span,
the single content segment appears in both phrases' overlapping lists — the
first accepting phrase does not consume it, because the segment loop never
consults `merged_segment_indices`. -/
theorem claim1_counterexample :
    merge_segments_by_selling_points [segW] [spW, spQ] 0 (1 / 5) = some resC1 ∧
    segW ∈ (resC1.merged_segments.getD 0 default).overlapping_segments ∧
    segW ∈ (resC1.merged_segments.getD 1 default).overlapping_segments := by
  refine ⟨?_, by decide, by decide⟩
  norm_num [merge_segments_by_selling_points, processPhrases, processPhrase, findOverlaps,
    overlapTest, pyInt, segW, spW, spQ, resC1, finalOfMerged, finalOfUnmerged, List.enum,
    List.enumFrom, List.filterMap_cons, List.filterMap_nil, List.getLast]

/-- Claim C1 (amended): in reconcile, each phrase's overlapping list is
computed independently of every other phrase — a content segment belongs to
phrase `k`'s overlapping list iff phrase `k`'s own overlap test accepts it,
even when an earlier phrase already absorbed it, so a segment can be
absorbed by several phrases and one phrase can absorb several segments;
absorption only excludes a segment from the unmerged list. -/
theorem claim1_amended (content : List ContentSegment) (sps : List SellingPoint)
    (tol : Int) (minOv : ℚ) (r : MergeResult)
    (h : merge_segments_by_selling_points content sps tol minOv = some r)
    (k : ℕ) (hk : k < sps.length) (s : ContentSegment) (hs : s ∈ content) :
    (s ∈ (r.merged_segments.getD k default).overlapping_segments ↔
      acceptedByB tol minOv (sps.getD k default) s = true) ∧
    (s ∈ r.unmerged_segments ↔
      ∀ sp ∈ sps, acceptedByB tol minOv sp s = false) := by
  obtain ⟨idxs, hps, hu, hf⟩ := merge_some_elim content sps tol minOv r h
  obtain ⟨hlen, hkk, _⟩ := processPhrases_some_elim tol minOv content sps _ _ hps
  obtain ⟨is2, his2⟩ := hkk k hk
  obtain ⟨_, hover, _, _⟩ := processPhrase_some_elim tol minOv content _ _ _ his2
  have hunm := merge_unmerged_char content sps tol minOv r idxs hps hu
  constructor
  · rw [hover, List.mem_filter]
    exact ⟨fun hb => hb.2, fun hb => ⟨hs, hb⟩⟩
  · rw [hunm, List.mem_filter]
    constructor
    · rintro ⟨_, hb⟩
      intro sp hsp
      have hany : (sps.any fun sp => acceptedByB tol minOv sp s) = false := by
        cases hany : (sps.any fun sp => acceptedByB tol minOv sp s) with
        | false => rfl
        | true => rw [hany] at hb; simp at hb
      have h2 := List.any_eq_false.mp hany sp hsp
      simpa using h2
    · intro hall
      refine ⟨hs, ?_⟩
      have hany : (sps.any fun sp => acceptedByB tol minOv sp s) = false :=
        List.any_eq_false.mpr (fun sp hsp => by simp [hall sp hsp])
      simp [hany]

/-- Witness for the amended C1 at a concrete input. -/
theorem claim1_witness :
    (segW ∈ (resW.merged_segments.getD 0 default).overlapping_segments ↔
      acceptedByB 0 (1 / 5) ([spW].getD 0 default) segW = true) ∧
    (segW ∈ resW.unmerged_segments ↔
      ∀ sp ∈ [spW], acceptedByB 0 (1 / 5) sp segW = false) :=
  claim1_amended [segW] [spW] 0 (1 / 5) resW mergeW 0 (by decide) segW (by decide)

/-- The phrase spanning 0.5 to 1.5 seconds. -/
def spHalf : SellingPoint := ⟨some (1 / 2), some (3 / 2), "p"⟩

/-- Content segment spanning 500 to 1500 ms. -/
def segFull : ContentSegment := ⟨500, 1500, "s", "d"⟩

/-- Content segment spanning 500 to 900 ms. -/
def segShort : ContentSegment := ⟨500, 900, "s", "d"⟩

/-- Counterexample to C2 as stated: with `minOverlapFraction = 1` and
`toleranceMs = 0`, the phrase spanning 0.5 to 1.5 seconds DOES merge with
the content segment spanning 500 to 900 ms, because the overlap fraction is
computed relative to the shorter of the two durations (400/400 = 1). -/
theorem claim2_counterexample :
    merge_segments_by_selling_points [segShort] [spHalf] 0 1
      = some ⟨[⟨some 500, some 1500, "p", [segShort]⟩], [], [⟨500, 900, "p"⟩]⟩ := by
  norm_num [merge_segments_by_selling_points, processPhrases, processPhrase, findOverlaps,
    overlapTest, pyInt, segShort, spHalf, finalOfMerged, finalOfUnmerged, List.enum,
    List.enumFrom, List.filterMap_cons, List.filterMap_nil, List.getLast]

/-- Claim C2 (amended): with `minOverlapFraction = 1` and `toleranceMs = 0`,
reconcile merges the phrase spanning 0.5 to 1.5 seconds with a content
segment spanning 500 to 1500 ms, and also with a content segment spanning
500 to 900 ms, since the fraction is measured against the shorter
duration. -/
theorem claim2_amended :
    merge_segments_by_selling_points [segFull] [spHalf] 0 1
      = some ⟨[⟨some 500, some 1500, "p", [segFull]⟩], [], [⟨500, 1500, "p"⟩]⟩ ∧
    merge_segments_by_selling_points [segShort] [spHalf] 0 1
      = some ⟨[⟨some 500, some 1500, "p", [segShort]⟩], [], [⟨500, 900, "p"⟩]⟩ := by
  constructor <;>
    norm_num [merge_segments_by_selling_points, processPhrases, processPhrase, findOverlaps,
      overlapTest, pyInt, segFull, segShort, spHalf, finalOfMerged, finalOfUnmerged, List.enum,
      List.enumFrom, List.filterMap_cons, List.filterMap_nil, List.getLast]

/-- Content segment spanning 900 to 1100 ms. -/
def segZ : ContentSegment := ⟨900, 1100, "s", "d"⟩

/-- A zero-duration phrase at 1 second. -/
def spZero : SellingPoint := ⟨some 1, some 1, "p"⟩

/-- Counterexample to C3 as stated: a zero-duration phrase combined with a
positive tolerance makes the overlap-fraction computation divide by zero
(`none` models the Python ZeroDivisionError), and with zero phrases the
unmerged and final collections are NOT empty — they carry every content
segment. -/
theorem claim3_counterexample :
    merge_segments_by_selling_points [segZ] [spZero] 100 (1 / 5) = none ∧
    merge_segments_by_selling_points [segZ] [] 0 (1 / 5)
      = some ⟨[], [segZ], [⟨900, 1100, "s"⟩]⟩ := by
  constructor <;>
    norm_num [merge_segments_by_selling_points, processPhrases, processPhrase, findOverlaps,
      overlapTest, pyInt, segZ, spZero, finalOfMerged, finalOfUnmerged, List.enum,
      List.enumFrom, List.filterMap_cons, List.filterMap_nil, List.getLast]

/-- Claim C3 (amended): reconcile never raises provided every phrase with
non-null times has a nonzero duration after conversion to integer
milliseconds; with zero content segments it returns empty unmerged and
final collections with merged holding one entry per phrase, each with an
empty overlap list; with zero phrases it returns empty merged, all content
segments unmerged, and a final timeline consisting of exactly those
segments. -/
theorem claim3_amended (content : List ContentSegment) (sps : List SellingPoint)
    (tol : Int) (minOv : ℚ)
    (h : ∀ sp ∈ sps, ∀ st et, sp.startTime = some st → sp.endTime = some et →
      pyInt (et * 1000) - pyInt (st * 1000) ≠ 0) :
    (merge_segments_by_selling_points content sps tol minOv).isSome ∧
    (∀ r, merge_segments_by_selling_points [] sps tol minOv = some r →
      r.merged_segments.length = sps.length ∧
      (∀ m ∈ r.merged_segments, m.overlapping_segments = []) ∧
      r.unmerged_segments = [] ∧ r.final_segments = []) ∧
    (∀ r, merge_segments_by_selling_points content [] tol minOv = some r →
      r.merged_segments = [] ∧ r.unmerged_segments = content ∧
      r.final_segments = content.map finalOfUnmerged) := by
  refine ⟨?_, ?_, ?_⟩
  · have h2 := processPhrases_isSome tol minOv content sps h
    cases hps : processPhrases tol minOv content sps with
    | none => rw [hps] at h2; exact absurd h2 (by simp)
    | some pr =>
      obtain ⟨ms, idxs⟩ := pr
      unfold merge_segments_by_selling_points
      rw [hps]
      rfl
  · intro r hr
    obtain ⟨idxs, hps, hu, hf⟩ := merge_some_elim [] sps tol minOv r hr
    obtain ⟨hlen, _, _⟩ := processPhrases_some_elim tol minOv [] sps _ _ hps
    have hov : ∀ m ∈ r.merged_segments, m.overlapping_segments = [] := by
      intro m hm
      obtain ⟨sp, _, hover⟩ := merged_mem_char [] sps tol minOv r idxs hps m hm
      simpa using hover
    have hun : r.unmerged_segments = [] := by simp [hu]
    refine ⟨hlen, hov, hun, ?_⟩
    rw [hf, hun]
    simp only [List.map_nil, List.append_nil]
    rw [List.filterMap_eq_nil_iff]
    intro m hm
    exact finalOfMerged_eq_none m (hov m hm)
  · intro r hr
    obtain ⟨idxs, hps, hu, hf⟩ := merge_some_elim content [] tol minOv r hr
    have h0 : processPhrases tol minOv content ([] : List SellingPoint)
        = some ([], []) := rfl
    rw [h0] at hps
    injection hps with h'
    have h1 : r.merged_segments = ([] : List MergedSegment) :=
      (congrArg Prod.fst h').symm
    have h2 : idxs = ([] : List ℕ) := (congrArg Prod.snd h').symm
    subst h2
    have hun : r.unmerged_segments = content := by
      rw [hu]
      have hpred : ∀ p : ℕ × ContentSegment, (decide (p.1 ∉ ([] : List ℕ))) = true := by
        intro p; simp
      calc (content.enum.filter fun p => decide (p.1 ∉ ([] : List ℕ))).map Prod.snd
          = content.enum.map Prod.snd := by
            rw [List.filter_eq_self.mpr (fun p _ => hpred p)]
        _ = content := List.enum_map_snd content
    refine ⟨h1, hun, ?_⟩
    rw [hf, h1, hun]
    simp

/-- Witness for the amended C3 at a concrete input. -/
theorem claim3_witness :
    (merge_segments_by_selling_points [segW] [spW] 0 (1 / 5)).isSome :=
  (claim3_amended [segW] [spW] 0 (1 / 5) (by
    intro sp hsp st et hst het
    rw [List.mem_singleton] at hsp
    subst hsp
    rw [show spW.startTime = some 0 from rfl] at hst
    rw [show spW.endTime = some 1 from rfl] at het
    injection hst with hst'
    injection het with het'
    subst hst'
    subst het'
    norm_num [pyInt])).1

/-- Content segment spanning 0 to 1000 ms with label a. -/
def segBig : ContentSegment := ⟨0, 1000, "a", "x"⟩

/-- Content segment spanning 10 to 20 ms, nested inside `segBig`. -/
def segNest : ContentSegment := ⟨10, 20, "b", "y"⟩

/-- The reconciler's output on `[segBig, segNest]`, `[spW]` with a low
threshold: both segments absorbed, envelope end taken from the LAST absorbed
segment (20), not the maximum (1000). -/
def resNest : MergeResult :=
  ⟨[⟨some 0, some 1000, "p", [segBig, segNest]⟩], [], [⟨0, 20, "p"⟩]⟩

/-- Counterexample to C10 as stated: the input content segments are sorted
ascending by `startTimeMs`, yet the final envelope's `endTimeMs` (20, the
last absorbed segment's end) is strictly below the maximum `endTimeMs` over
the absorbed segments (1000). -/
theorem claim10_counterexample :
    merge_segments_by_selling_points [segBig, segNest] [spW] 0 (1 / 100)
      = some resNest ∧
    List.Sorted (fun a b : ContentSegment => a.startTimeMs ≤ b.startTimeMs)
      [segBig, segNest] ∧
    segBig ∈ (resNest.merged_segments.getD 0 default).overlapping_segments ∧
    (resNest.final_segments.getD 0 default).endTimeMs < segBig.endTimeMs := by
  refine ⟨?_, by decide, by decide, by decide⟩
  norm_num [merge_segments_by_selling_points, processPhrases, processPhrase, findOverlaps,
    overlapTest, pyInt, segBig, segNest, spW, resNest, finalOfMerged, finalOfUnmerged,
    List.enum, List.enumFrom, List.filterMap_cons, List.filterMap_nil, List.getLast]

/-- Claim C10 (amended): each phrase's overlapping list records absorbed
content segments in input order (it is the filter of the content list by
that phrase's acceptance test) and the unmerged list likewise preserves
input order; when the input is sorted ascending by `startTimeMs` each final
envelope's `startTimeMs` is the minimum over the absorbed segments, and the
envelope's `endTimeMs` is the last absorbed segment's end, which is the
maximum only when `endTimeMs` is also non-decreasing along the input. -/
theorem claim10_amended (content : List ContentSegment) (sps : List SellingPoint)
    (tol : Int) (minOv : ℚ) (r : MergeResult)
    (h : merge_segments_by_selling_points content sps tol minOv = some r) :
    (∀ k, k < sps.length →
      (r.merged_segments.getD k default).overlapping_segments
        = content.filter (acceptedByB tol minOv (sps.getD k default))) ∧
    (r.unmerged_segments
      = content.filter fun s => !(sps.any fun sp => acceptedByB tol minOv sp s)) ∧
    (List.Sorted (fun a b : ContentSegment => a.startTimeMs ≤ b.startTimeMs) content →
      ∀ m ∈ r.merged_segments, ∀ f, finalOfMerged m = some f →
        (∀ s ∈ m.overlapping_segments, f.startTimeMs ≤ s.startTimeMs) ∧
        (∃ s0 ∈ m.overlapping_segments, f.startTimeMs = s0.startTimeMs)) ∧
    (List.Sorted (fun a b : ContentSegment => a.endTimeMs ≤ b.endTimeMs) content →
      ∀ m ∈ r.merged_segments, ∀ f, finalOfMerged m = some f →
        (∀ s ∈ m.overlapping_segments, s.endTimeMs ≤ f.endTimeMs) ∧
        (∃ s1 ∈ m.overlapping_segments, f.endTimeMs = s1.endTimeMs)) := by
  obtain ⟨idxs, hps, hu, hf⟩ := merge_some_elim content sps tol minOv r h
  obtain ⟨hlen, hk, hmem⟩ := processPhrases_some_elim tol minOv content sps _ _ hps
  refine ⟨?_, merge_unmerged_char content sps tol minOv r idxs hps hu, ?_, ?_⟩
  · intro k hkk
    obtain ⟨is2, his2⟩ := hk k hkk
    obtain ⟨_, hover, _, _⟩ := processPhrase_some_elim tol minOv content _ _ _ his2
    exact hover
  · intro hsort m hm f hfm
    obtain ⟨sp, _, hover⟩ := merged_mem_char content sps tol minOv r idxs hps m hm
    have hsorted : List.Sorted (fun a b : ContentSegment => a.startTimeMs ≤ b.startTimeMs)
        m.overlapping_segments := by
      rw [hover]; exact hsort.filter _
    cases hov : m.overlapping_segments with
    | nil => rw [finalOfMerged_eq_none m hov] at hfm; exact absurd hfm (by simp)
    | cons s rest =>
      rw [finalOfMerged_cons m s rest hov] at hfm
      injection hfm with hfm'
      subst hfm'
      rw [hov] at hsorted
      rw [List.sorted_cons] at hsorted
      constructor
      · intro x hx
        rcases List.mem_cons.mp hx with h1 | h2
        · subst h1; exact le_refl _
        · exact hsorted.1 x h2
      · exact ⟨s, by simp, rfl⟩
  · intro hsort m hm f hfm
    obtain ⟨sp, _, hover⟩ := merged_mem_char content sps tol minOv r idxs hps m hm
    have hsorted : List.Sorted (fun a b : ContentSegment => a.endTimeMs ≤ b.endTimeMs)
        m.overlapping_segments := by
      rw [hover]; exact hsort.filter _
    cases hov : m.overlapping_segments with
    | nil => rw [finalOfMerged_eq_none m hov] at hfm; exact absurd hfm (by simp)
    | cons s rest =>
      rw [finalOfMerged_cons m s rest hov] at hfm
      injection hfm with hfm'
      subst hfm'
      rw [hov] at hsorted
      have hlast := sorted_le_getLast (fun c : ContentSegment => c.endTimeMs)
        (s :: rest) (List.cons_ne_nil s rest) hsorted
      constructor
      · intro x hx
        exact hlast x hx
      · exact ⟨(s :: rest).getLast (List.cons_ne_nil s rest),
          List.getLast_mem _, rfl⟩

/-- Witness for the amended C10 at a concrete input. -/
theorem claim10_witness :
    (resW.merged_segments.getD 0 default).overlapping_segments
      = [segW].filter (acceptedByB 0 (1 / 5) ([spW].getD 0 default)) :=
  (claim10_amended [segW] [spW] 0 (1 / 5) resW mergeW).1 0 (by decide)

/-! ### Claim C6 -/

/-- Claim C6: the final timeline consists of one final segment per merged
segment with a non-empty overlap list — spanning from the first absorbed
content segment's start to the last absorbed content segment's end, in
absorption order — followed by every unmerged content segment with its own
bounds and label; merged segments with empty overlap lists contribute
nothing, and the final list is not re-sorted. -/
theorem claim6_final_timeline (content : List ContentSegment)
    (sps : List SellingPoint) (tol : Int) (minOv : ℚ) (r : MergeResult)
    (h : merge_segments_by_selling_points content sps tol minOv = some r) :
    r.final_segments
      = r.merged_segments.filterMap specFinalOfMerged
        ++ r.unmerged_segments.map
            (fun s => ⟨s.startTimeMs, s.endTimeMs, s.sellingPoint⟩) := by
  obtain ⟨idxs, hps, hu, hf⟩ := merge_some_elim content sps tol minOv r h
  rw [hf]
  rw [show specFinalOfMerged = finalOfMerged from rfl]
  rw [show (fun s : ContentSegment =>
        (⟨s.startTimeMs, s.endTimeMs, s.sellingPoint⟩ : FinalSegment))
      = finalOfUnmerged from rfl]

/-- Witness for C6 at a concrete input. -/
theorem claim6_witness :
    resW.final_segments
      = resW.merged_segments.filterMap specFinalOfMerged
        ++ resW.unmerged_segments.map
            (fun s => ⟨s.startTimeMs, s.endTimeMs, s.sellingPoint⟩) :=
  claim6_final_timeline [segW] [spW] 0 (1 / 5) resW mergeW

/-! ### Claims C8 and C9 (the locator's output shape and ordering) -/

lemma processPointsLoop_length (words : List WordSeg) :
    ∀ (sps : List (List Char)) (claimed : List ℕ),
      (processPointsLoop words claimed sps).length
        = (sps.filter fun p => !(splitWs (lowerStr p)).isEmpty).length := by
  intro sps
  induction sps with
  | nil => intro claimed; rfl
  | cons sp sps ih =>
    intro claimed
    by_cases hp : splitWs (lowerStr sp) = []
    · simp [processPointsLoop, hp, List.filter_cons, ih]
    · cases hm : matchPhrase words claimed (splitWs (lowerStr sp)) with
      | none => simp [processPointsLoop, hp, hm, List.filter_cons, ih]
      | some v =>
        obtain ⟨s, e, idxs⟩ := v
        simp [processPointsLoop, hp, hm, List.filter_cons, ih]

/-- Claim C8: the locator's output has exactly one entry per phrase that is
non-empty after lowercasing and whitespace splitting; empty phrases are
dropped without raising. -/
theorem claim8_output_length (word_segments : List WordSeg)
    (selling_points : List (List Char)) :
    (match_selling_points_with_timestamps word_segments selling_points).length
      = (selling_points.filter fun p => !(splitWs (lowerStr p)).isEmpty).length := by
  show ((processPointsLoop
      (word_segments.map fun w => ⟨w.start, w.stop, lowerStr w.word⟩)
      [] selling_points).mergeSort sortKeyLE).length = _
  rw [List.length_mergeSort]
  exact processPointsLoop_length _ selling_points []

lemma sortKeyLE_total (a b : TimedPhrase) :
    (sortKeyLE a b || sortKeyLE b a) = true := by
  cases ha : a.startTime with
  | none => cases hb : b.startTime <;> simp [sortKeyLE, ha, hb]
  | some x =>
    cases hb : b.startTime with
    | none => simp [sortKeyLE, ha, hb]
    | some y =>
      simp only [sortKeyLE, ha, hb, Bool.or_eq_true, decide_eq_true_eq]
      exact le_total x y

lemma sortKeyLE_trans (a b c : TimedPhrase) (hab : sortKeyLE a b = true)
    (hbc : sortKeyLE b c = true) : sortKeyLE a c = true := by
  cases ha : a.startTime with
  | none =>
    cases hb : b.startTime with
    | some y => simp [sortKeyLE, ha, hb] at hab
    | none =>
      cases hc : c.startTime with
      | some z => simp [sortKeyLE, hb, hc] at hbc
      | none => simp [sortKeyLE, ha, hc]
  | some x =>
    cases hc : c.startTime with
    | none => simp [sortKeyLE, ha, hc]
    | some z =>
      cases hb : b.startTime with
      | none => simp [sortKeyLE, hb, hc] at hbc
      | some y =>
        simp only [sortKeyLE, ha, hb, decide_eq_true_eq] at hab
        simp only [sortKeyLE, hb, hc, decide_eq_true_eq] at hbc
        simp only [sortKeyLE, ha, hc, decide_eq_true_eq]
        exact le_trans hab hbc

/-- Claim C9: the locator's output is sorted ascending by `startTime`, with
every null-time entry placed after every timed entry. -/
theorem claim9_output_sorted (word_segments : List WordSeg)
    (selling_points : List (List Char)) :
    List.Pairwise (fun a b : TimedPhrase =>
      (a.startTime = none → b.startTime = none) ∧
      (∀ x y : ℚ, a.startTime = some x → b.startTime = some y → x ≤ y))
      (match_selling_points_with_timestamps word_segments selling_points) := by
  have hs := List.sorted_mergeSort sortKeyLE_trans sortKeyLE_total
    (processPointsLoop
      (word_segments.map fun w => ⟨w.start, w.stop, lowerStr w.word⟩)
      [] selling_points)
  refine List.Pairwise.imp ?_ hs
  intro a b hab
  constructor
  · intro hna
    cases hb : b.startTime with
    | none => rfl
    | some y => simp [sortKeyLE, hna, hb] at hab
  · intro x y hx hy
    simp only [sortKeyLE, hx, hy, decide_eq_true_eq] at hab
    exact hab

/-! ### Claim C7 (pass-1 candidate acceptance) -/

lemma runCount1_claimed (words : List WordSeg) (claimed : List ℕ) (i : ℕ)
    (pws : List (List Char)) (h : i ∈ claimed) :
    runCount1 words claimed i pws = 0 := by
  cases pws with
  | nil => rfl
  | cons p ps =>
    simp only [runCount1]
    cases hw : words[i]? with
    | none => rfl
    | some w => simp [h]

lemma not_prefixAccept_claimed (words : List WordSeg) (claimed : List ℕ)
    (pws : List (List Char)) (i : ℕ) (h : i ∈ claimed) :
    ¬ prefixAccept words claimed pws i := by
  rintro ⟨hfit, hth⟩
  rw [runCount1_claimed words claimed i pws h] at hth
  have h1 : (1 : ℕ) ≤ max 1 (pws.length / 2) := le_max_left _ _
  omega

lemma prefixAccept_lt (words : List WordSeg) (claimed : List ℕ)
    (pws : List (List Char)) (i : ℕ) (h : prefixAccept words claimed pws i) :
    i < words.length := by
  obtain ⟨hfit, hth⟩ := h
  cases pws with
  | nil => simp [runCount1] at hth
  | cons p ps =>
    simp only [List.length_cons] at hfit
    omega

/-- Characterization of the pass-1 candidate scan over the enumerated
transcript suffix starting at position `n`: it returns `some (i, mc)` iff
`i` is the first position at or after `n` that is accepted, with `mc` its
consecutive-match count. -/
lemma findCandidate1_spec (words : List WordSeg) (claimed : List ℕ)
    (pws : List (List Char)) :
    ∀ (l : List WordSeg) (n : ℕ), l = words.drop n →
      ∀ i mc,
      (findCandidate1 words claimed pws (List.enumFrom n l) = some (i, mc) ↔
        (n ≤ i ∧ prefixAccept words claimed pws i ∧
         mc = runCount1 words claimed i pws ∧
         ∀ j, n ≤ j → j < i → ¬ prefixAccept words claimed pws j)) := by
  intro l
  induction l with
  | nil =>
    intro n hl i mc
    constructor
    · intro h; simp [findCandidate1] at h
    · rintro ⟨hni, hacc, _, _⟩
      exfalso
      have h1 : i < words.length := prefixAccept_lt words claimed pws i hacc
      have h2 : words.length ≤ n := List.drop_eq_nil_iff.mp hl.symm
      omega
  | cons a t ih =>
    intro n hl i mc
    have hlt : t = words.drop (n + 1) := by
      rw [← List.tail_drop words n, ← hl]
      rfl
    have iht := ih (n + 1) hlt i mc
    rw [List.enumFrom_cons]
    simp only [findCandidate1]
    by_cases hskip : (decide (n ∈ claimed) || decide (words.length < n + pws.length)) = true
    · have hnacc : ¬ prefixAccept words claimed pws n := by
        have hor := hskip
        rw [Bool.or_eq_true] at hor
        rcases hor with h1 | h1
        · exact not_prefixAccept_claimed words claimed pws n (of_decide_eq_true h1)
        · have h2 := of_decide_eq_true h1
          rintro ⟨hfit, _⟩
          omega
      rw [if_pos hskip, iht]
      constructor
      · rintro ⟨h1, h2, h3, h4⟩
        refine ⟨by omega, h2, h3, ?_⟩
        intro j hj1 hj2
        by_cases hjn : j = n
        · subst hjn; exact hnacc
        · exact h4 j (by omega) hj2
      · rintro ⟨h1, h2, h3, h4⟩
        have hin : i ≠ n := fun he => hnacc (he ▸ h2)
        exact ⟨by omega, h2, h3, fun j hj1 hj2 => h4 j (by omega) hj2⟩
    · have hor : (decide (n ∈ claimed) || decide (words.length < n + pws.length)) = false :=
        Bool.eq_false_iff.mpr hskip
      obtain ⟨hd1, hd2⟩ := Bool.or_eq_false_iff.mp hor
      have hfit : n + pws.length ≤ words.length := by
        have h2 := of_decide_eq_false hd2
        omega
      rw [if_neg hskip]
      by_cases hth : max 1 (pws.length / 2) ≤ runCount1 words claimed n pws
      · have haccn : prefixAccept words claimed pws n := ⟨hfit, hth⟩
        rw [if_pos hth]
        constructor
        · intro he
          injection he with he'
          have hin : n = i := congrArg Prod.fst he'
          have hmc : runCount1 words claimed n pws = mc := congrArg Prod.snd he'
          subst hin
          exact ⟨le_refl _, haccn, hmc.symm, fun j hj1 hj2 => by omega⟩
        · rintro ⟨h1, h2, h3, h4⟩
          have hie : i = n := by
            by_contra hne
            exact h4 n (le_refl n) (by omega) haccn
          subst hie
          rw [h3]
      · have hnacc : ¬ prefixAccept words claimed pws n := fun hp => hth hp.2
        rw [if_neg hth, iht]
        constructor
        · rintro ⟨h1, h2, h3, h4⟩
          refine ⟨by omega, h2, h3, ?_⟩
          intro j hj1 hj2
          by_cases hjn : j = n
          · subst hjn; exact hnacc
          · exact h4 j (by omega) hj2
        · rintro ⟨h1, h2, h3, h4⟩
          have hin : i ≠ n := fun he => hnacc (he ▸ h2)
          exact ⟨by omega, h2, h3, fun j hj1 hj2 => h4 j (by omega) hj2⟩

/-- Claim C7 (amended): in pass 1, a transcript position `i` is accepted iff
the whole phrase still fits at `i` (`i + n ≤` transcript length — a
condition the claim as stated omits) and the consecutive-match run starting
at `i` (stopping at the first mismatch or already-claimed position) reaches
`max 1 (floor(n / 2))`; the first accepted position wins, its match count is
the run length, and on acceptance with no remaining phrase words the result
is word `i`'s start time, word `i + mc - 1`'s end time, and the claimed
indices `i .. i + mc - 1`. -/
theorem claim7_pass1_rule (words : List WordSeg) (claimed : List ℕ)
    (pws : List (List Char)) (i mc : ℕ) :
    (findCandidate1 words claimed pws words.enum = some (i, mc) ↔
      (prefixAccept words claimed pws i ∧
       mc = runCount1 words claimed i pws ∧
       ∀ j < i, ¬ prefixAccept words claimed pws j)) ∧
    (findCandidate1 words claimed pws words.enum = some (i, mc) →
      pws.drop mc = [] →
      pass1 words claimed pws
        = some ((words.getD i default).start,
            (words.getD (i + mc - 1) default).stop,
            (List.range mc).map (i + ·))) := by
  have hspec := findCandidate1_spec words claimed pws words 0 (by rfl) i mc
  constructor
  · rw [show words.enum = List.enumFrom 0 words from rfl, hspec]
    constructor
    · rintro ⟨_, h2, h3, h4⟩
      exact ⟨h2, h3, fun j hj => h4 j (by omega) hj⟩
    · rintro ⟨h2, h3, h4⟩
      exact ⟨by omega, h2, h3, fun j _ hj => h4 j hj⟩
  · intro hfc hdrop
    unfold pass1
    rw [hfc]
    dsimp only
    rw [hdrop]
    simp [List.intercalate]

/-- Witness transcript: two words a and b. -/
def wordsW : List WordSeg := [⟨0, 1, ['a']⟩, ⟨1, 2, ['b']⟩]

/-- Witness phrase words: a b. -/
def pwsW : List (List Char) := [['a'], ['b']]

/-- Witness for the amended C7: on the two-word transcript, pass 1 accepts
position 0 with match count 2 and yields word 0's start, word 1's end, and
claimed indices 0 and 1. -/
theorem claim7_witness :
    pass1 wordsW [] pwsW = some (0, 2, [0, 1]) := by
  have h := (claim7_pass1_rule wordsW [] pwsW 0 2).2 (by decide) rfl
  exact h

/-- Phrase words a b c d (four words, threshold 2). -/
def pwsC : List (List Char) := [['a'], ['b'], ['c'], ['d']]

/-- Counterexample to C7 as stated: at position 0 of the two-word transcript
the consecutive-match run has length 2, which meets the threshold
`max 1 (4 / 2) = 2`, yet pass 1 accepts nothing (and the whole match fails),
because the scan skips every position where fewer than 4 transcript words
remain. -/
theorem claim7_counterexample :
    max 1 (pwsC.length / 2) ≤ runCount1 wordsW [] 0 pwsC ∧
    findCandidate1 wordsW [] pwsC wordsW.enum = none ∧
    matchPhrase wordsW [] pwsC = none := by decide

end CUPost
